import Mathlib

/-!
Verification of the PageRank repository (`src/pagerank.py`) against its
natural-language specification.  The Python code is shallowly embedded:
dictionaries become pairs of a key list and a total value function,
floats become exact rationals, the random sources of the sampler become
explicit oracle parameters, and fallible operations (Python exceptions)
return `Option`.
-/

namespace PageRank

/-- Pages are opaque string identifiers (spec §3). -/
abbrev Node := String

/-- Embedding of the Python corpus dictionary: `keys` is the (insertion
ordered) key list of the dict, and `out p` is the out-set `corpus[p]`
(a Python set, embedded as a duplicate-free list).  For `p` not in
`keys` the function value is irrelevant junk, as a missing dict entry. -/
structure Graph where
  keys : List Node
  out : Node → List Node

/-- Sum of the values of an embedded dictionary with key list `ks` and
value function `v`. -/
def dictSum (ks : List Node) (v : Node → ℚ) : ℚ := (ks.map v).sum

/-- Key list of the defaultdict built by `transition_model`
(src/pagerank.py lines 59-69): the first loop inserts the links of
`page` (line 62-64), the second loop inserts every corpus key not
already present (lines 66-69). -/
def dist_keys (corpus : Graph) (page : Node) : List Node :=
  corpus.out page ++ corpus.keys.filter (fun link => decide (link ∉ corpus.out page))

/-- Value function of the defaultdict built by `transition_model`
(src/pagerank.py lines 59-69): a link of `page` gets
`damping_factor * (1 / pages_count)` from the first loop (line 63-64,
where `pages_count = len(corpus[page])`), and every corpus key gets
`(1 - damping_factor) / (pages_count + 1)` added by the second loop
(line 68-69); the defaultdict default is 0. -/
def dist_val (corpus : Graph) (page : Node) (damping_factor : ℚ) : Node → ℚ :=
  fun link =>
    (if link ∈ corpus.out page then
      damping_factor * (1 / ((corpus.out page).length : ℚ)) else 0) +
    (if link ∈ corpus.keys then
      (1 - damping_factor) / (((corpus.out page).length : ℚ) + 1) else 0)

/-- Embedding of `transition_model` (src/pagerank.py lines 49-71).
The first component of the result is the corpus after the call (the
function body contains no store to `corpus`, so it is returned
unchanged).  The expression `1 / pages_count` (line 63) is evaluated
once per element of `corpus[page]`, so a `ZeroDivisionError` (embedded
as `none`) occurs exactly when that set is non-empty while its length
is zero; the divisor `pages_count + 1` of line 68 is at least 1. -/
def transition_model (corpus : Graph) (page : Node) (damping_factor : ℚ) :
    Graph × Option (List Node × (Node → ℚ)) :=
  if (corpus.out page) ≠ [] ∧ ((corpus.out page).length = 0) then (corpus, none)
  else (corpus, some (dist_keys corpus page, dist_val corpus page damping_factor))

/-- The guard of the embedded `transition_model` is unsatisfiable, so the
function always returns its distribution: there is no division by zero
on any input. -/
theorem transition_model_eq (corpus : Graph) (page : Node) (d : ℚ) :
    transition_model corpus page d =
      (corpus, some (dist_keys corpus page, dist_val corpus page d)) := by
  unfold transition_model
  rw [if_neg]
  rintro ⟨hne, hlen⟩
  exact hne (List.length_eq_zero.mp hlen)

/-- Summing a map whose values are constant on the list. -/
theorem sum_map_const_on (l : List Node) (f : Node → ℚ) (c : ℚ)
    (h : ∀ x ∈ l, f x = c) : (l.map f).sum = (l.length : ℚ) * c := by
  induction l with
  | nil => simp
  | cons a t ih =>
    have ha : f a = c := h a (by simp)
    have ht : (t.map f).sum = (t.length : ℚ) * c :=
      ih (fun x hx => h x (by simp [hx]))
    simp only [List.map_cons, List.sum_cons, ha, ht, List.length_cons]
    push_cast
    ring

/-- Pointwise addition distributes over a mapped sum. -/
theorem sum_map_add (l : List Node) (f g : Node → ℚ) :
    (l.map (fun x => f x + g x)).sum = (l.map f).sum + (l.map g).sum := by
  induction l with
  | nil => simp
  | cons a t ih => simp only [List.map_cons, List.sum_cons, ih]; ring

/-- Under the spec's Graph invariant (§3: out-sets are duplicate-free
and contained in the key set), the key list of the distribution built
by `transition_model` is a permutation of the corpus key list. -/
theorem dist_keys_perm (corpus : Graph) (page : Node)
    (hK : corpus.keys.Nodup) (hL : (corpus.out page).Nodup)
    (hsub : ∀ x ∈ corpus.out page, x ∈ corpus.keys) :
    (dist_keys corpus page).Perm corpus.keys := by
  have hfilter :
      (corpus.keys.filter (fun link => decide (link ∈ corpus.out page))).Perm
        (corpus.out page) := by
    apply List.perm_of_nodup_nodup_toFinset_eq (hK.filter _) hL
    ext x
    simp only [List.mem_toFinset, List.mem_filter, decide_eq_true_eq]
    exact ⟨fun h => h.2, fun h => ⟨hsub x h, h⟩⟩
  have hsplit :
      ((corpus.keys.filter (fun link => decide (link ∈ corpus.out page))) ++
        (corpus.keys.filter (fun link => decide (link ∉ corpus.out page)))).Perm
        corpus.keys := by
    have := List.filter_append_perm
      (fun link => decide (link ∈ corpus.out page)) corpus.keys
    simpa [Function.comp] using this
  exact ((hfilter.append_right _).symm.trans hsplit)

/-- Total mass of the distribution built by `transition_model` on a page
with at least one out-link: `d + N * (1 - d) / (k + 1)` where `N` is the
number of corpus keys and `k` the out-degree of `page`. -/
theorem dist_val_sum (corpus : Graph) (page : Node) (d : ℚ)
    (hK : corpus.keys.Nodup) (hL : (corpus.out page).Nodup)
    (hsub : ∀ x ∈ corpus.out page, x ∈ corpus.keys)
    (hk : corpus.out page ≠ []) :
    dictSum (dist_keys corpus page) (dist_val corpus page d) =
      d + (corpus.keys.length : ℚ) *
        ((1 - d) / (((corpus.out page).length : ℚ) + 1)) := by
  classical
  have hperm := dist_keys_perm corpus page hK hL hsub
  unfold dictSum dist_val
  rw [sum_map_add]
  have hlink :
      ((dist_keys corpus page).map (fun link =>
        if link ∈ corpus.out page then
          d * (1 / ((corpus.out page).length : ℚ)) else 0)).sum = d := by
    unfold dist_keys
    rw [List.map_append, List.sum_append]
    have h1 :
        ((corpus.out page).map (fun link =>
          if link ∈ corpus.out page then
            d * (1 / ((corpus.out page).length : ℚ)) else 0)).sum =
          ((corpus.out page).length : ℚ) *
            (d * (1 / ((corpus.out page).length : ℚ))) := by
      apply sum_map_const_on
      intro x hx
      simp [hx]
    have h2 :
        ((corpus.keys.filter (fun link => decide (link ∉ corpus.out page))).map
          (fun link => if link ∈ corpus.out page then
            d * (1 / ((corpus.out page).length : ℚ)) else 0)).sum = 0 := by
      rw [sum_map_const_on _ _ 0, mul_zero]
      intro x hx
      rw [List.mem_filter] at hx
      have : x ∉ corpus.out page := by simpa using hx.2
      simp [this]
    have hlenpos : (0 : ℚ) < ((corpus.out page).length : ℚ) := by
      have : 0 < (corpus.out page).length := List.length_pos.mpr hk
      exact_mod_cast this
    rw [h1, h2, add_zero]
    field_simp
  have hjump :
      ((dist_keys corpus page).map (fun link =>
        if link ∈ corpus.keys then
          (1 - d) / (((corpus.out page).length : ℚ) + 1) else 0)).sum =
        (corpus.keys.length : ℚ) *
          ((1 - d) / (((corpus.out page).length : ℚ) + 1)) := by
    rw [(hperm.map _).sum_eq]
    apply sum_map_const_on
    intro x hx
    simp [hx]
  rw [hlink, hjump]

/-- Concrete three-page corpus `{a: {b}, b: {a}, c: {a}}`. -/
def g3 : Graph :=
  ⟨["a", "b", "c"], fun p =>
    if p = "a" then ["b"] else if p = "b" then ["a"] else if p = "c" then ["a"] else []⟩

/-- Concrete two-page corpus in which every page is dangling. -/
def g2 : Graph := ⟨["a", "b"], fun _ => []⟩

/-- C1: on a page with out-set `L` of size `k > 0`, `transition_model`
assigns to each node of `L` the mass `dampingFactor / k` plus the random
jump mass `(1 - dampingFactor) / (k + 1)`, and to every other node of
the graph exactly the random-jump mass `(1 - dampingFactor) / (k + 1)`.
The graph satisfies the spec §3 invariant (out-sets are duplicate-free
subsets of the key set). -/
theorem transition_model_masses (corpus : Graph) (page : Node) (d : ℚ)
    (hpage : page ∈ corpus.keys) (hk : corpus.out page ≠ [])
    (hd0 : 0 ≤ d) (hd1 : d ≤ 1)
    (hL : (corpus.out page).Nodup)
    (hsub : ∀ x ∈ corpus.out page, x ∈ corpus.keys) :
    (transition_model corpus page d).2 =
      some (dist_keys corpus page, dist_val corpus page d) ∧
    (∀ x ∈ corpus.out page,
      dist_val corpus page d x =
        d / ((corpus.out page).length : ℚ) +
          (1 - d) / (((corpus.out page).length : ℚ) + 1)) ∧
    (∀ x ∈ corpus.keys, x ∉ corpus.out page →
      dist_val corpus page d x = (1 - d) / (((corpus.out page).length : ℚ) + 1)) := by
  refine ⟨by rw [transition_model_eq], ?_, ?_⟩
  · intro x hx
    unfold dist_val
    rw [if_pos hx, if_pos (hsub x hx), mul_one_div]
  · intro x hx hnx
    unfold dist_val
    rw [if_neg hnx, if_pos hx, zero_add]

/-- Closed witness for `transition_model_masses` at the corpus `g3`,
page `a`, damping factor `1/2`. -/
theorem transition_model_masses_witness :
    ("a" ∈ g3.keys ∧ g3.out "a" ≠ [] ∧ (0 : ℚ) ≤ 1/2 ∧ (1/2 : ℚ) ≤ 1 ∧
      (g3.out "a").Nodup ∧ ∀ x ∈ g3.out "a", x ∈ g3.keys) ∧
    ((transition_model g3 "a" (1/2)).2 =
      some (dist_keys g3 "a", dist_val g3 "a" (1/2)) ∧
    (∀ x ∈ g3.out "a",
      dist_val g3 "a" (1/2) x =
        (1/2 : ℚ) / ((g3.out "a").length : ℚ) +
          (1 - 1/2) / (((g3.out "a").length : ℚ) + 1)) ∧
    (∀ x ∈ g3.keys, x ∉ g3.out "a" →
      dist_val g3 "a" (1/2) x = (1 - 1/2) / (((g3.out "a").length : ℚ) + 1))) := by
  refine ⟨⟨by decide, by decide, by norm_num, by norm_num, by decide, by decide⟩, ?_⟩
  exact transition_model_masses g3 "a" (1/2) (by decide) (by decide)
    (by norm_num) (by norm_num) (by decide) (by decide)

/-- C2 counterexample: on the corpus `g2` whose page `a` is dangling,
`transition_model` does not raise a division-by-zero (the embedded
result is `some`, not the `none` that models the exception). -/
theorem transition_model_dangling_no_error :
    g2.out "a" = [] ∧ ((transition_model g2 "a" (1/2)).2).isSome = true := by
  constructor
  · rfl
  · rw [transition_model_eq]
    rfl

/-- C2 amended: calling `transition_model` on a dangling node does not
raise a division-by-zero condition; it returns a distribution normally
(the division of line 63 of src/pagerank.py sits inside a loop over the
empty out-set and is never evaluated, and line 68 divides by
`pages_count + 1 = 1`). -/
theorem transition_model_dangling_total (corpus : Graph) (page : Node) (d : ℚ)
    (hdangling : corpus.out page = []) :
    ((transition_model corpus page d).2).isSome = true := by
  rw [transition_model_eq]
  rfl

/-- Closed witness for `transition_model_dangling_total` at the corpus
`g2` and its dangling page `b`. -/
theorem transition_model_dangling_total_witness :
    g2.out "b" = [] ∧ ((transition_model g2 "b" (1/3)).2).isSome = true :=
  ⟨rfl, transition_model_dangling_total g2 "b" (1/3) rfl⟩

/-- C3 failing input: on the corpus `g3 = {a: {b}, b: {a}, c: {a}}` with
current page `a` and damping factor `1/2`, the values of the
distribution returned by `transition_model` sum to `5/4`, not `1`. -/
theorem transition_model_sum_not_one :
    (transition_model g3 "a" (1/2)).2 =
      some (dist_keys g3 "a", dist_val g3 "a" (1/2)) ∧
    dictSum (dist_keys g3 "a") (dist_val g3 "a" (1/2)) = 5/4 ∧ (5/4 : ℚ) ≠ 1 := by
  refine ⟨by rw [transition_model_eq], ?_, by norm_num⟩
  have : dist_keys g3 "a" = ["b", "a", "c"] := by decide
  rw [this]
  unfold dictSum dist_val
  norm_num [g3, List.map_cons, List.sum_cons,
    if_neg (by decide : ¬ ("a" : Node) = "b"),
    if_neg (by decide : ¬ ("c" : Node) = "b")]

/-- C9: on a dangling page of a duplicate-free corpus with `N` keys,
`transition_model` returns normally; its key list is the corpus key
list, every node of the graph is assigned exactly `1 - dampingFactor`,
and the values sum to `N * (1 - dampingFactor)`. -/
theorem transition_model_dangling_values (corpus : Graph) (page : Node) (d : ℚ)
    (hpage : page ∈ corpus.keys) (hdangling : corpus.out page = [])
    (hK : corpus.keys.Nodup) :
    (transition_model corpus page d).2 =
      some (dist_keys corpus page, dist_val corpus page d) ∧
    dist_keys corpus page = corpus.keys ∧
    (∀ x ∈ corpus.keys, dist_val corpus page d x = 1 - d) ∧
    dictSum (dist_keys corpus page) (dist_val corpus page d) =
      (corpus.keys.length : ℚ) * (1 - d) := by
  have hkeys : dist_keys corpus page = corpus.keys := by
    unfold dist_keys
    rw [hdangling]
    simp
  have hval : ∀ x ∈ corpus.keys, dist_val corpus page d x = 1 - d := by
    intro x hx
    unfold dist_val
    rw [hdangling]
    simp [hx]
  refine ⟨by rw [transition_model_eq], hkeys, hval, ?_⟩
  rw [hkeys]
  unfold dictSum
  exact sum_map_const_on _ _ _ hval

/-- Closed witness for `transition_model_dangling_values` at the corpus
`g2`, dangling page `a`, damping factor `1/3`: the values sum to
`2 * (1 - 1/3) = 4/3`. -/
theorem transition_model_dangling_values_witness :
    ("a" ∈ g2.keys ∧ g2.out "a" = [] ∧ g2.keys.Nodup) ∧
    ((transition_model g2 "a" (1/3)).2 =
      some (dist_keys g2 "a", dist_val g2 "a" (1/3)) ∧
    dist_keys g2 "a" = g2.keys ∧
    (∀ x ∈ g2.keys, dist_val g2 "a" (1/3) x = 1 - 1/3) ∧
    dictSum (dist_keys g2 "a") (dist_val g2 "a" (1/3)) =
      (g2.keys.length : ℚ) * (1 - 1/3)) :=
  ⟨⟨by decide, rfl, by decide⟩,
    transition_model_dangling_values g2 "a" (1/3) (by decide) rfl (by decide)⟩

/-- The `parent_pages` list of `iterate_pagerank`
(src/pagerank.py lines 138-141): the corpus keys that link to `page`. -/
def parent_pages (corpus : Graph) (page : Node) : List Node :=
  corpus.keys.filter (fun q => decide (page ∈ corpus.out q))

/-- One rank update of `iterate_pagerank` (src/pagerank.py lines
143-155): the random-jump mass `(1 - damping_factor) / pages_count`
plus `damping_factor` times the accumulated parent contributions
`page_ranks[q] / len(corpus[q])`. -/
def new_rank (corpus : Graph) (damping_factor : ℚ) (page_ranks : Node → ℚ)
    (page : Node) : ℚ :=
  (1 - damping_factor) / (corpus.keys.length : ℚ) +
    damping_factor *
      ((parent_pages corpus page).foldl
        (fun acc q => acc + page_ranks q / ((corpus.out q).length : ℚ)) 0)

/-- The convergence check of `iterate_pagerank` (src/pagerank.py lines
157-161): start from `True` and clear the flag whenever a page moved by
more than `0.001`. -/
def convergence_flag (pages : List Node) (oldR newR : Node → ℚ) : Bool :=
  pages.foldl
    (fun conv page => if |oldR page - newR page| > 1/1000 then false else conv) true

/-- The `while True` loop of `iterate_pagerank` (src/pagerank.py lines
131-167), with explicit fuel standing for the unbounded iteration:
compute the new table, return it when the convergence flag holds,
otherwise replace the old table and continue. -/
def iterLoop (corpus : Graph) (damping_factor : ℚ) :
    ℕ → (Node → ℚ) → Option (Node → ℚ)
  | 0, _ => none
  | fuel + 1, page_ranks =>
    if convergence_flag corpus.keys page_ranks
        (fun page => new_rank corpus damping_factor page_ranks page) then
      some (fun page => new_rank corpus damping_factor page_ranks page)
    else
      iterLoop corpus damping_factor fuel
        (fun page => new_rank corpus damping_factor page_ranks page)

/-- The dangling-node preprocessing of `iterate_pagerank`
(src/pagerank.py lines 121-124): every key whose out-set is empty is
rewritten to point to the full key list.  The rewrite is performed on
the caller's corpus dictionary itself; this definition is the corpus as
the caller observes it after the call. -/
def patch_dangling (corpus : Graph) : Graph :=
  ⟨corpus.keys, fun page =>
    if page ∈ corpus.keys ∧ corpus.out page = [] then corpus.keys
    else corpus.out page⟩

/-- Embedding of `iterate_pagerank` (src/pagerank.py lines 109-167).
The first component is the caller's corpus after the call (mutated by
the dangling rewrite of lines 121-124); the second is the rank table
produced by the loop, `none` when the fuel runs out. -/
def iterate_pagerank (corpus : Graph) (damping_factor : ℚ) (fuel : ℕ) :
    Graph × Option (Node → ℚ) :=
  (patch_dangling corpus,
    iterLoop (patch_dangling corpus) damping_factor fuel
      (fun _ => 1 / (corpus.keys.length : ℚ)))

/-- Follows the spec's words (§4.3): the working graph in which every
dangling node of the graph has its out-set replaced with the full node
set. -/
def spec_working (g : Graph) : Graph :=
  ⟨g.keys, fun page =>
    if page ∈ g.keys ∧ g.out page = [] then g.keys else g.out page⟩

/-- Follows the spec's words (§4.3): `newRank[p] = (1 - dampingFactor)/N
+ dampingFactor * Σ over parents q of p (rank[q] / outDegree(q))`,
parents and out-degrees taken in the working graph `g`. -/
def spec_new_rank (g : Graph) (dampingFactor : ℚ) (rank : Node → ℚ)
    (p : Node) : ℚ :=
  (1 - dampingFactor) / (g.keys.length : ℚ) +
    dampingFactor *
      ((g.keys.filter (fun q => decide (p ∈ g.out q))).map
        (fun q => rank q / ((g.out q).length : ℚ))).sum

/-- Folding additions of mapped values equals the initial value plus the
mapped sum. -/
theorem foldl_add_eq_sum (f : Node → ℚ) (l : List Node) (a : ℚ) :
    l.foldl (fun acc q => acc + f q) a = a + (l.map f).sum := by
  induction l generalizing a with
  | nil => simp
  | cons x t ih => simp only [List.foldl_cons, List.map_cons, List.sum_cons, ih]; ring

/-- Concrete two-page corpus `{a: {}, b: {a}}` with a dangling page. -/
def g4 : Graph := ⟨["a", "b"], fun p => if p = "b" then ["a"] else []⟩

/-- C4 failing input: `iterate_pagerank` mutates the caller's corpus.
On the corpus `g4 = {a: {}, b: {a}}` the dangling page `a` has the empty
out-set before the call, and after the call the caller's corpus maps it
to the full page list `[a, b]`. -/
theorem iterate_pagerank_mutates_input :
    g4.out "a" = [] ∧
    ((iterate_pagerank g4 (1/2) 1).1).out "a" = ["a", "b"] := by
  constructor
  · rfl
  · decide

/-- C5: on a non-empty graph, `iterate_pagerank` starts the loop from
the table assigning `1/N` to every node, runs it on the spec's working
graph (dangling out-sets replaced by the full node set), and each rank
update computes exactly the spec's recurrence `newRank[p] =
(1 - dampingFactor)/N + dampingFactor * Σ over parents q of p
(rank[q] / outDegree(q))` over that working graph. -/
theorem iterate_pagerank_follows_spec (corpus : Graph) (d : ℚ) (fuel : ℕ)
    (hne : corpus.keys ≠ []) :
    iterate_pagerank corpus d fuel =
      (spec_working corpus,
        iterLoop (spec_working corpus) d fuel
          (fun _ => 1 / (corpus.keys.length : ℚ))) ∧
    (∀ ranks p, new_rank (spec_working corpus) d ranks p =
      spec_new_rank (spec_working corpus) d ranks p) := by
  constructor
  · rfl
  · intro ranks p
    unfold new_rank spec_new_rank parent_pages
    rw [foldl_add_eq_sum, zero_add]

/-- Closed witness for `iterate_pagerank_follows_spec` at the corpus
`g4`, damping factor `1/2`, fuel `1`. -/
theorem iterate_pagerank_follows_spec_witness :
    g4.keys ≠ [] ∧
    (iterate_pagerank g4 (1/2) 1 =
      (spec_working g4,
        iterLoop (spec_working g4) (1/2) 1 (fun _ => 1 / (g4.keys.length : ℚ))) ∧
    (∀ ranks p, new_rank (spec_working g4) (1/2) ranks p =
      spec_new_rank (spec_working g4) (1/2) ranks p)) :=
  ⟨by decide, iterate_pagerank_follows_spec g4 (1/2) 1 (by decide)⟩

/-- The convergence fold keeps the accumulator conjoined with the
per-page checks. -/
theorem convergence_flag_foldl (pages : List Node) (oldR newR : Node → ℚ) :
    ∀ b : Bool,
      pages.foldl
        (fun conv page =>
          if |oldR page - newR page| > 1/1000 then false else conv) b =
      (b && pages.all (fun page => decide (|oldR page - newR page| ≤ 1/1000))) := by
  induction pages with
  | nil => intro b; simp
  | cons a t ih =>
    intro b
    simp only [List.foldl_cons, List.all_cons]
    by_cases h : |oldR a - newR a| > 1/1000
    · rw [if_pos h, ih false]
      have hd : decide (|oldR a - newR a| ≤ 1/1000) = false :=
        decide_eq_false (not_le.mpr h)
      rw [hd]
      simp
    · rw [if_neg h, ih b]
      have hd : decide (|oldR a - newR a| ≤ 1/1000) = true :=
        decide_eq_true (not_lt.mp h)
      rw [hd]
      simp

/-- C6: the loop of `iterate_pagerank` classifies an iteration as
converged exactly when every page's absolute rank change is at most the
tolerance `0.001` (inclusive), and one loop step returns the new table
on convergence and otherwise iterates on it. -/
theorem iterate_pagerank_convergence (pages : List Node) (oldR newR : Node → ℚ)
    (corpus : Graph) (d : ℚ) (fuel : ℕ) (ranks : Node → ℚ) :
    (convergence_flag pages oldR newR = true ↔
      ∀ page ∈ pages, |oldR page - newR page| ≤ 1/1000) ∧
    (iterLoop corpus d (fuel + 1) ranks =
      if convergence_flag corpus.keys ranks
          (fun page => new_rank corpus d ranks page) then
        some (fun page => new_rank corpus d ranks page)
      else
        iterLoop corpus d fuel (fun page => new_rank corpus d ranks page)) := by
  constructor
  · unfold convergence_flag
    rw [convergence_flag_foldl pages oldR newR true, Bool.true_and,
      List.all_eq_true]
    constructor
    · intro h page hp
      exact of_decide_eq_true (h page hp)
    · intro h page hp
      exact decide_eq_true (h page hp)
  · rfl

/-- Embedding of the sampling loop of `sample_pagerank`
(src/pagerank.py lines 92-101), with `steps` counting the remaining
iterations of `range(1, n)` and `i` the current loop index.  The
weighted draw `random.choices(population, weights)` is embedded as the
oracle `picks`, applied to the key and value lists of the transition
distribution; following CPython it raises (`none`) when the weights sum
to at most zero.  The increment `page_ranks[curr_page] += 1` raises a
`KeyError` (`none`) when the drawn page is not a corpus key.  The
corpus is threaded through the calls and returned alongside the
result. -/
def sampleLoop (damping_factor : ℚ) (picks : ℕ → List Node → List ℚ → Node) :
    ℕ → Graph → ℕ → Node → (Node → ℕ) → Graph × Option ((Node → ℕ) × Node)
  | 0, corpus, _, curr_page, page_ranks => (corpus, some (page_ranks, curr_page))
  | steps + 1, corpus, i, curr_page, page_ranks =>
    match transition_model corpus curr_page damping_factor with
    | (c1, none) => (c1, none)
    | (c1, some (population, weightf)) =>
      let weights := population.map weightf
      if weights.sum ≤ 0 then (c1, none)
      else
        let next := picks i population weights
        if next ∈ c1.keys then
          sampleLoop damping_factor picks steps c1 (i + 1) next
            (fun p => if p = next then page_ranks p + 1 else page_ranks p)
        else (c1, none)

/-- Embedding of `sample_pagerank` (src/pagerank.py lines 74-106).  The
uniformly drawn start page of line 88 is the parameter `start_page`
(`random.choice` raises on an empty page list, embedded as the first
guard); the visit table starts at zero for every page and the start
page is credited one visit (lines 85-89); the loop then performs the
`n - 1` draws; finally every count is divided by `n` (line 103), which
raises (`none`) when `n = 0`.  The first component is the corpus after
the call; the second holds the key list and value function of the
returned dictionary. -/
def sample_pagerank (corpus : Graph) (damping_factor : ℚ) (n : ℕ)
    (start_page : Node) (picks : ℕ → List Node → List ℚ → Node) :
    Graph × Option (List Node × (Node → ℚ)) :=
  if corpus.keys = [] then (corpus, none)
  else
    match sampleLoop damping_factor picks (n - 1) corpus 1 start_page
        (fun p => if p = start_page then 1 else 0) with
    | (g, none) => (g, none)
    | (g, some (page_ranks, _)) =>
      if n = 0 then (g, none)
      else (g, some (corpus.keys, fun page => (page_ranks page : ℚ) / (n : ℚ)))

/-- The sampling loop threads the corpus through unchanged. -/
theorem sampleLoop_fst (d : ℚ) (picks : ℕ → List Node → List ℚ → Node) :
    ∀ (steps : ℕ) (corpus : Graph) (i : ℕ) (curr : Node) (cnt : Node → ℕ),
      (sampleLoop d picks steps corpus i curr cnt).1 = corpus := by
  intro steps
  induction steps with
  | zero => intro corpus i curr cnt; rfl
  | succ s ih =>
    intro corpus i curr cnt
    rw [sampleLoop, transition_model_eq]
    simp only
    split
    · rfl
    · split
      · exact ih corpus (i + 1) _ _
      · rfl

/-- C10: neither `transition_model` nor `sample_pagerank` changes the
input graph: the corpus each returns is the corpus it was given (their
bodies contain no store to the corpus, unlike the dangling rewrite of
`iterate_pagerank`). -/
theorem sampler_leaves_graph_unchanged (corpus : Graph) (page start_page : Node)
    (d : ℚ) (n : ℕ) (picks : ℕ → List Node → List ℚ → Node) :
    (transition_model corpus page d).1 = corpus ∧
    (sample_pagerank corpus d n start_page picks).1 = corpus := by
  constructor
  · rw [transition_model_eq]
  · unfold sample_pagerank
    split
    · rfl
    · have hfst := sampleLoop_fst d picks (n - 1) corpus 1 start_page
        (fun p => if p = start_page then 1 else 0)
      rcases hres : sampleLoop d picks (n - 1) corpus 1 start_page
        (fun p => if p = start_page then 1 else 0) with ⟨g, r⟩
      rw [hres] at hfst
      rcases r with _ | ⟨cnt, last⟩
      · simpa using hfst
      · simp only
        split <;> simpa using hfst

/-- C8: with `sampleCount = 1` the sampler returns the table that
assigns `1` to the start page and `0` to every other page; the result
does not depend on the draw oracle because `range(1, 1)` is empty, so
no transition-model draw is performed. -/
theorem sample_pagerank_single (corpus : Graph) (d : ℚ) (start_page : Node)
    (hne : corpus.keys ≠ []) (hstart : start_page ∈ corpus.keys) :
    ∀ picks, (sample_pagerank corpus d 1 start_page picks).2 =
      some (corpus.keys, fun p => if p = start_page then (1 : ℚ) else 0) := by
  intro picks
  unfold sample_pagerank
  rw [if_neg hne]
  show (if (1 : ℕ) = 0 then _ else
    (corpus, some (corpus.keys,
      fun page => (((fun p => if p = start_page then 1 else 0) page : ℕ) : ℚ) / ((1 : ℕ) : ℚ)))).2 = _
  rw [if_neg one_ne_zero]
  simp only
  congr 2
  funext p
  by_cases h : p = start_page <;> simp [h]

/-- Closed witness for `sample_pagerank_single` at the corpus `g2` and
start page `b`. -/
theorem sample_pagerank_single_witness :
    (g2.keys ≠ [] ∧ "b" ∈ g2.keys) ∧
    ∀ picks, (sample_pagerank g2 (1/2) 1 "b" picks).2 =
      some (g2.keys, fun p => if p = "b" then (1 : ℚ) else 0) :=
  ⟨⟨by decide, by decide⟩, sample_pagerank_single g2 (1/2) "b" (by decide) (by decide)⟩

/-- Incrementing a table at a member of a duplicate-free key list adds
one to the sum of the mapped values. -/
theorem sum_map_update_nat (l : List Node) (f : Node → ℕ) (x : Node)
    (hl : l.Nodup) (hx : x ∈ l) :
    (l.map (fun p => if p = x then f p + 1 else f p)).sum = (l.map f).sum + 1 := by
  induction l with
  | nil => cases hx
  | cons a t ih =>
    rcases List.nodup_cons.mp hl with ⟨ha, ht⟩
    rcases List.mem_cons.mp hx with h | h
    · subst h
      simp only [List.map_cons, List.sum_cons, if_pos rfl]
      have hmap : t.map (fun p => if p = x then f p + 1 else f p) = t.map f := by
        apply List.map_congr_left
        intro p hp
        exact if_neg (fun e : p = x => ha (e ▸ hp))
      rw [hmap]
      simp
      omega
    · have hax : a ≠ x := fun e : a = x => ha (e.symm ▸ h)
      simp only [List.map_cons, List.sum_cons, if_neg hax, ih ht h]
      omega

/-- Dividing each mapped value by a constant divides the sum. -/
theorem sum_map_div (l : List Node) (g : Node → ℚ) (c : ℚ) :
    (l.map (fun p => g p / c)).sum = (l.map g).sum / c := by
  induction l with
  | nil => simp
  | cons a t ih => simp only [List.map_cons, List.sum_cons, ih, add_div]

/-- Under the spec §3 invariant and `0 ≤ dampingFactor ≤ 1`, the weights
of the transition distribution of a non-dangling page have positive
total, so the weighted draw of `random.choices` does not raise. -/
theorem dist_val_sum_pos (corpus : Graph) (page : Node) (d : ℚ)
    (hK : corpus.keys.Nodup) (hL : (corpus.out page).Nodup)
    (hsub : ∀ x ∈ corpus.out page, x ∈ corpus.keys)
    (hk : corpus.out page ≠ []) (hne : corpus.keys ≠ [])
    (hd0 : 0 ≤ d) (hd1 : d ≤ 1) :
    0 < dictSum (dist_keys corpus page) (dist_val corpus page d) := by
  rw [dist_val_sum corpus page d hK hL hsub hk]
  have hN : (0 : ℚ) < (corpus.keys.length : ℚ) := by
    have : 0 < corpus.keys.length := List.length_pos.mpr hne
    exact_mod_cast this
  have hk1 : (0 : ℚ) < ((corpus.out page).length : ℚ) + 1 := by positivity
  rcases eq_or_lt_of_le hd1 with h1 | h1
  · rw [h1]
    simp
  · have hjump : 0 < (corpus.keys.length : ℚ) *
        ((1 - d) / (((corpus.out page).length : ℚ) + 1)) := by
      apply mul_pos hN
      apply div_pos (by linarith) hk1
    linarith

/-- Every key of the transition distribution is a corpus key, under the
spec §3 invariant for the current page. -/
theorem dist_keys_subset (corpus : Graph) (page : Node)
    (hsub : ∀ x ∈ corpus.out page, x ∈ corpus.keys) :
    ∀ x ∈ dist_keys corpus page, x ∈ corpus.keys := by
  intro x hx
  rcases List.mem_append.mp hx with h | h
  · exact hsub x h
  · exact (List.mem_filter.mp h).1

/-- Invariant of the sampling loop: on a corpus that satisfies the spec
§3 invariant, has no dangling node and duplicate-free keys, with a
damping factor in `[0, 1]` and a draw oracle that picks from its
population, the loop never raises, stays inside the corpus keys, and
each step adds exactly one visit to the total count. -/
theorem sampleLoop_counts (corpus : Graph) (d : ℚ)
    (picks : ℕ → List Node → List ℚ → Node)
    (hK : corpus.keys.Nodup)
    (hO : ∀ q ∈ corpus.keys, (corpus.out q).Nodup)
    (hsub : ∀ q ∈ corpus.keys, ∀ x ∈ corpus.out q, x ∈ corpus.keys)
    (hdang : ∀ q ∈ corpus.keys, corpus.out q ≠ [])
    (hd0 : 0 ≤ d) (hd1 : d ≤ 1)
    (hpicks : ∀ i pop w, pop ≠ [] → picks i pop w ∈ pop) :
    ∀ (steps i : ℕ) (curr : Node) (cnt : Node → ℕ), curr ∈ corpus.keys →
      ∃ (cnt' : Node → ℕ) (last : Node),
        sampleLoop d picks steps corpus i curr cnt = (corpus, some (cnt', last)) ∧
        last ∈ corpus.keys ∧
        (corpus.keys.map cnt').sum = (corpus.keys.map cnt).sum + steps := by
  intro steps
  induction steps with
  | zero =>
    intro i curr cnt hcurr
    exact ⟨cnt, curr, rfl, hcurr, by simp⟩
  | succ s ih =>
    intro i curr cnt hcurr
    have hne : corpus.keys ≠ [] := List.ne_nil_of_mem hcurr
    have hpos : 0 < ((dist_keys corpus curr).map (dist_val corpus curr d)).sum :=
      dist_val_sum_pos corpus curr d hK (hO curr hcurr) (hsub curr hcurr)
        (hdang curr hcurr) hne hd0 hd1
    have hpopne : dist_keys corpus curr ≠ [] := by
      unfold dist_keys
      intro hcontr
      exact hdang curr hcurr (List.append_eq_nil.mp hcontr).1
    have hnext : picks i (dist_keys corpus curr)
        ((dist_keys corpus curr).map (dist_val corpus curr d)) ∈
          dist_keys corpus curr :=
      hpicks i _ _ hpopne
    have hnextmem : picks i (dist_keys corpus curr)
        ((dist_keys corpus curr).map (dist_val corpus curr d)) ∈ corpus.keys :=
      dist_keys_subset corpus curr (hsub curr hcurr) _ hnext
    rw [sampleLoop, transition_model_eq]
    simp only
    rw [if_neg (not_le.mpr hpos), if_pos hnextmem]
    obtain ⟨cnt', last, heq, hlast, hsum⟩ :=
      ih (i + 1) _ (fun p => if p = picks i (dist_keys corpus curr)
        ((dist_keys corpus curr).map (dist_val corpus curr d))
        then cnt p + 1 else cnt p) hnextmem
    refine ⟨cnt', last, heq, hlast, ?_⟩
    rw [hsum, sum_map_update_nat corpus.keys cnt _ hK hnextmem]
    omega

/-- C7: on a non-empty corpus satisfying the spec §3 invariant, with no
dangling node (every node can be the uniformly drawn start, so a
dangling node would be reachable), a damping factor in `[0, 1]`, at
least one sample, a start page among the keys and a draw oracle that
picks from its population, `sample_pagerank` returns the table whose
keys are exactly the corpus keys, whose value at each page is its
integer visit count divided by `n`, with the visit counts summing to
`n` and the values to exactly `1`. -/
theorem sample_pagerank_sums (corpus : Graph) (d : ℚ) (n : ℕ) (start_page : Node)
    (picks : ℕ → List Node → List ℚ → Node)
    (hK : corpus.keys.Nodup)
    (hO : ∀ q ∈ corpus.keys, (corpus.out q).Nodup)
    (hsub : ∀ q ∈ corpus.keys, ∀ x ∈ corpus.out q, x ∈ corpus.keys)
    (hdang : ∀ q ∈ corpus.keys, corpus.out q ≠ [])
    (hd0 : 0 ≤ d) (hd1 : d ≤ 1) (hn : 1 ≤ n)
    (hstart : start_page ∈ corpus.keys)
    (hpicks : ∀ i pop w, pop ≠ [] → picks i pop w ∈ pop) :
    ∃ cnt : Node → ℕ,
      (sample_pagerank corpus d n start_page picks).2 =
        some (corpus.keys, fun page => (cnt page : ℚ) / (n : ℚ)) ∧
      (corpus.keys.map cnt).sum = n ∧
      dictSum corpus.keys (fun page => (cnt page : ℚ) / (n : ℚ)) = 1 := by
  have hne : corpus.keys ≠ [] := List.ne_nil_of_mem hstart
  obtain ⟨cnt, last, heq, hlast, hsum⟩ :=
    sampleLoop_counts corpus d picks hK hO hsub hdang hd0 hd1 hpicks
      (n - 1) 1 start_page (fun p => if p = start_page then 1 else 0) hstart
  have hinit : (corpus.keys.map (fun p => if p = start_page then 1 else 0)).sum = 1 := by
    have := sum_map_update_nat corpus.keys (fun _ => 0) start_page hK hstart
    simpa using this
  have hcnt : (corpus.keys.map cnt).sum = n := by
    rw [hsum, hinit]
    omega
  refine ⟨cnt, ?_, hcnt, ?_⟩
  · unfold sample_pagerank
    rw [if_neg hne, heq]
    simp only
    rw [if_neg (by omega : ¬ n = 0)]
  · have hcast : ((corpus.keys.map (fun p => (cnt p : ℚ))).sum) = (n : ℚ) := by
      rw [← hcnt, Nat.cast_list_sum, List.map_map]
      rfl
    have hn0 : ((n : ℕ) : ℚ) ≠ 0 := by
      exact_mod_cast (by omega : n ≠ 0)
    unfold dictSum
    rw [sum_map_div, hcast, div_self hn0]

/-- The head of a non-empty list belongs to it; validity of the
concrete draw oracle used in the sampling witness. -/
theorem headI_mem_of_ne_nil (l : List Node) (h : l ≠ []) : l.headI ∈ l := by
  cases l with
  | nil => exact absurd rfl h
  | cons a t => exact List.mem_cons_self a t

/-- Closed witness for `sample_pagerank_sums` at the corpus `g3`,
damping factor `1/2`, three samples, start page `a`, and the oracle
that always picks the head of the population. -/
theorem sample_pagerank_sums_witness :
    (g3.keys.Nodup ∧ (∀ q ∈ g3.keys, (g3.out q).Nodup) ∧
      (∀ q ∈ g3.keys, ∀ x ∈ g3.out q, x ∈ g3.keys) ∧
      (∀ q ∈ g3.keys, g3.out q ≠ []) ∧
      (0 : ℚ) ≤ 1/2 ∧ (1/2 : ℚ) ≤ 1 ∧ (1 : ℕ) ≤ 3 ∧ "a" ∈ g3.keys ∧
      (∀ (i : ℕ) (pop : List Node) (w : List ℚ), pop ≠ [] →
        (fun _ pop _ => pop.headI : ℕ → List Node → List ℚ → Node) i pop w ∈ pop)) ∧
    (∃ cnt : Node → ℕ,
      (sample_pagerank g3 (1/2) 3 "a" (fun _ pop _ => pop.headI)).2 =
        some (g3.keys, fun page => (cnt page : ℚ) / ((3 : ℕ) : ℚ)) ∧
      (g3.keys.map cnt).sum = 3 ∧
      dictSum g3.keys (fun page => (cnt page : ℚ) / ((3 : ℕ) : ℚ)) = 1) :=
  ⟨⟨by decide, by decide, by decide, by decide, by norm_num, by norm_num,
      by norm_num, by decide, fun i pop w h => headI_mem_of_ne_nil pop h⟩,
    sample_pagerank_sums g3 (1/2) 3 "a" (fun _ pop _ => pop.headI)
      (by decide) (by decide) (by decide) (by decide) (by norm_num) (by norm_num)
      (by norm_num) (by decide) (fun i pop w h => headI_mem_of_ne_nil pop h)⟩

end PageRank
